import Mathlib

/-!
# Verification of the NBA game narrative derivation (nba_game_plots.py)

This file gives a shallow embedding, in Lean 4, of the deterministic
transformations performed by `tweet_game` in `nba_game_plots.py`:

* the event-timeline normalization (remaining-clock to elapsed minutes,
  lines 100-108),
* the score and lead statistics (ties, lead changes, time leading,
  lines 86-126),
* the shot-coordinate normalization (lines 199-214), and
* the per-category top-3 leaderboards (lines 273-297), including a model
  of the sorting routine actually used by `DataFrame.sort_values`
  (pandas `nargsort` over numpy's introsort-based `aquicksort`).

Machine floats are modelled by exact rationals; a float `NaN` produced by
reducing an empty series (`max`/`min` of an empty selection) or by
arithmetic on such a value is modelled by `none` in `Option ℚ`.  The one
irrational operation, the square root used for the empirical three-point
radius, is modelled by `Real.sqrt` at the final step only.
-/

namespace NbaGamePlots

/-! ## Event timeline normalization (lines 100-108)

`play_by_play["time"] = (np.minimum(remaining.diff(), 0).cumsum().fillna(0)) / -60`

`diff` leaves a missing value in front, `cumsum` keeps accumulating past
it, `fillna(0)` turns the front entry into `0`, so the elapsed time of
the first event is `0` and each later event advances by the *decrease*
of the remaining clock (an upward clock jump at a period rollover is
clamped to 0 by `np.minimum`). -/

/-- The tail of the elapsed-time series: `prev` is the previous remaining
clock value, `acc` the accumulated `min(diff, 0)` sum so far; each emitted
entry is the accumulated sum divided by `-60` (seconds to minutes). -/
def elapsedAux (prev acc : ℚ) : List ℚ → List ℚ
  | [] => []
  | r :: rest =>
    let acc2 := acc + min (r - prev) 0
    acc2 / (-60) :: elapsedAux r acc2 rest

/-- `play_by_play["time"]`: elapsed minutes for each event, from the
remaining-seconds-in-period series. -/
def elapsedTimes : List ℚ → List ℚ
  | [] => []
  | r0 :: rest => 0 :: elapsedAux r0 0 rest

/-! ## Timed events and lead durations (lines 109-126) -/

/-- A row of the normalized timeline: elapsed minutes plus the running
scores carried by the play-by-play row. -/
structure TimedEvent where
  elapsed : ℚ
  away : ℕ
  home : ℕ
deriving DecidableEq, Repr

/-- `play_by_play["duration"] = play_by_play["time"].diff().fillna(0)`,
keeping each duration paired with its row: the entry for the first row is
`0`, and each later row carries `elapsed - previous elapsed`. -/
def durationsFrom (prev : ℚ) : List TimedEvent → List (TimedEvent × ℚ)
  | [] => []
  | e :: rest => (e, e.elapsed - prev) :: durationsFrom e.elapsed rest

/-- The timeline paired with per-row durations (`fillna(0)` on the first
row). -/
def withDurations : List TimedEvent → List (TimedEvent × ℚ)
  | [] => []
  | e :: rest => (e, 0) :: durationsFrom e.elapsed rest

/-- `play_by_play.query("away_score > home_score")["duration"].sum()`:
total minutes during which the away team led. -/
def awayLeadingTotal (es : List TimedEvent) : ℚ :=
  (((withDurations es).filter fun p => p.1.home < p.1.away).map Prod.snd).sum

/-- `play_by_play.query("away_score < home_score")["duration"].sum()`:
total minutes during which the home team led. -/
def homeLeadingTotal (es : List TimedEvent) : ℚ :=
  (((withDurations es).filter fun p => p.1.away < p.1.home).map Prod.snd).sum

/-- Total minutes during which the score was level (the durations
attributed to neither side). -/
def tiedTotal (es : List TimedEvent) : ℚ :=
  (((withDurations es).filter fun p => p.1.away = p.1.home).map Prod.snd).sum

/-- Elapsed time of the first event (`0` for an empty timeline). -/
def headElapsed (es : List TimedEvent) : ℚ :=
  ((es.head?.map TimedEvent.elapsed).getD 0)

/-- Elapsed time of the last event (`0` for an empty timeline); for a
normalized timeline, whose first elapsed time is `0`, this is the total
game duration. -/
def lastElapsed (es : List TimedEvent) : ℚ :=
  ((es.getLast?.map TimedEvent.elapsed).getD 0)

/-! ## Tie count (lines 86-91) -/

/-- A play-by-play score state: the running away and home scores of one
row. -/
structure ScorePair where
  away : ℕ
  home : ℕ
deriving DecidableEq, Repr

/-- `drop_duplicates(subset=["away_score", "home_score"])`: keep the
first row for each distinct score pair, dropping every row whose pair
already occurred earlier; `seen` accumulates the pairs kept so far. -/
def dropDupPairsAux (seen : List ScorePair) : List ScorePair → List ScorePair
  | [] => []
  | p :: rest =>
    if p ∈ seen then dropDupPairsAux seen rest
    else p :: dropDupPairsAux (p :: seen) rest

/-- `play_by_play.drop_duplicates(subset=["away_score", "home_score"])`. -/
def dropDupPairs (ps : List ScorePair) : List ScorePair :=
  dropDupPairsAux [] ps

/-- Lines 86-91: deduplicate the score pairs, keep those with
`away_score > 0`, and count the rows where the scores are equal. -/
def tieCount (ps : List ScorePair) : ℕ :=
  (((dropDupPairs ps).filter fun p => 0 < p.away).filter
    fun p => p.away = p.home).length

/-- Restatement of the spec's description of the tie count: the number
of distinct score pairs occurring in the sequence that are ties with a
positive score.  (`List.dedup` keeps one representative per distinct
pair; which representative is kept cannot matter for the count.) -/
def specTieCount (ps : List ScorePair) : ℕ :=
  ((ps.dedup).filter fun p => 0 < p.away ∧ p.away = p.home).length

/-! ## Lead changes (lines 92-95)

`(play_by_play["lead"].replace(0, np.nan).dropna() < 0).diff().sum()`

`replace(0, nan).dropna()` removes the zero leads; `< 0` yields a boolean
series; pandas computes `diff` of a boolean series with XOR (leaving a
missing value in front), and `sum` counts the `True`s. -/

/-- Count of positions where consecutive booleans differ (the sum of the
XOR-`diff` of a boolean series, whose leading missing value sums as 0). -/
def countFlips : List Bool → ℕ
  | a :: b :: rest => (if a ≠ b then 1 else 0) + countFlips (b :: rest)
  | _ => 0

/-- Lines 92-95 applied to the lead series `away_score - home_score`:
drop the zeros, map to the booleans `lead < 0`, and sum the XOR-`diff`. -/
def leadChanges (leads : List ℤ) : ℕ :=
  countFlips (((leads.filter fun x => x ≠ 0).map fun x => decide (x < 0)))

/-- Restatement of the spec's description: the number of consecutive
pairs of the zero-free lead series whose signs differ. -/
def signFlipsAux : List ℤ → ℕ
  | x :: y :: rest => (if x.sign ≠ y.sign then 1 else 0) + signFlipsAux (y :: rest)
  | _ => 0

/-- The spec-side lead-change count: sign flips between consecutive
non-missing (zero-free) entries of the lead series. -/
def signFlipCount (leads : List ℤ) : ℕ :=
  signFlipsAux (leads.filter fun x => x ≠ 0)

/-- Lead series of a sequence of score pairs (`away_score - home_score`). -/
def leadSeries (ps : List ScorePair) : List ℤ :=
  ps.map fun p => (p.away : ℤ) - p.home

/-! ## Shot coordinate normalization (lines 195-214)

Raw shot coordinates arrive as strings with a trailing unit suffix and
are coerced with `float(ft[:-3])` (lines 199-200); a string on which the
coercion fails raises out of `Series.apply`, aborting `tweet_game` for
the whole game.  A raw coordinate is therefore modelled as `Option ℚ`:
`some q` is a string that coerces to the number `q`, `none` is a string
on which `float` raises.

After coercion the x column is conditionally rescaled from the corner
anchors and the y column unconditionally rescaled from the minimal
arc distance.  `Series.max`/`Series.min` of an empty selection is float
`NaN`, modelled as `none`; arithmetic on `NaN` yields `NaN` (`none`
propagates; a division by an exact zero, which would give an infinity,
is also modelled as `none` — no claim below exercises it).  Python's
truth test, used by `if left_corner and right_corner:`, holds for `NaN`
and fails only for `0.0`. -/

/-- A shot attempt row before numeric coercion: coordinates are `some q`
when `float(ft[:-3])` would return `q` and `none` when it would raise. -/
structure RawShot where
  x : Option ℚ
  y : Option ℚ
  value : ℕ
deriving DecidableEq, Repr

/-- A shot attempt row after numeric coercion (lines 199-200). -/
structure Shot where
  x : ℚ
  y : ℚ
  value : ℕ
deriving DecidableEq, Repr

/-- Lines 199-200: `shots["x"].apply(lambda ft: float(ft[:-3]))` (and the
same for y).  `float` raising on any single row propagates out of
`Series.apply`, so one malformed coordinate aborts the whole coercion. -/
def coerceShots : List RawShot → Except Unit (List Shot)
  | [] => .ok []
  | s :: rest =>
    match s.x, s.y with
    | some x, some y =>
      match coerceShots rest with
      | .ok ss => .ok (⟨x, y, s.value⟩ :: ss)
      | .error e => .error e
    | _, _ => .error ()

/-- Float maximum of a (possibly empty) column: `NaN` (`none`) iff the
column is empty. -/
def seriesMax : List ℚ → Option ℚ
  | [] => none
  | q :: rest =>
    match seriesMax rest with
    | none => some q
    | some m => some (max q m)

/-- Float minimum of a (possibly empty) column. -/
def seriesMin : List ℚ → Option ℚ
  | [] => none
  | q :: rest =>
    match seriesMin rest with
    | none => some q
    | some m => some (min q m)

/-- `shots.query("VALUE == 3 and y < 14 and x < 25")["x"].max()`: where
the raw left-corner three-point line sits. -/
def leftCorner (shots : List Shot) : Option ℚ :=
  seriesMax ((shots.filter fun s => s.value = 3 ∧ s.y < 14 ∧ s.x < 25).map Shot.x)

/-- `shots.query("VALUE == 3 and y < 14 and x > 25")["x"].min()`: where
the raw right-corner three-point line sits. -/
def rightCorner (shots : List Shot) : Option ℚ :=
  seriesMin ((shots.filter fun s => s.value = 3 ∧ s.y < 14 ∧ 25 < s.x).map Shot.x)

/-- Python truth test on a float: `0.0` is falsy; every other float,
`NaN` included, is truthy. -/
def pyTruthy : Option ℚ → Bool
  | none => true
  | some q => q ≠ 0

/-- Lines 206-209: the conditional x-rescale.  When the guard
`if left_corner and right_corner:` holds, every x becomes
`(x - left_corner) / (right_corner - left_corner) * 44 + 3`; `NaN`
anchors (empty corner selections) propagate to every rescaled x. -/
def normalizedXs (shots : List Shot) : List (Option ℚ) :=
  let lc := leftCorner shots
  let rc := rightCorner shots
  if pyTruthy lc && pyTruthy rc then
    shots.map fun s =>
      match lc, rc with
      | some l, some r =>
        if r - l = 0 then none else some ((s.x - l) / (r - l) * 44 + 3)
      | _, _ => none
  else
    shots.map fun s => some s.x

/-- Lines 210-213: each above-corner three-point attempt's squared
distance from the hoop at `(25, 5.25)`, computed on the rescaled x; a
`NaN` x gives a `NaN` distance, which `Series.min` skips.  The minimum
of the square roots is the square root of the minimum, so the empirical
minimal arc distance is `Real.sqrt` of this value. -/
def minArcDistSq (shots : List Shot) : Option ℚ :=
  seriesMin
    (((shots.zip (normalizedXs shots)).filter fun p => p.1.value = 3 ∧ 14 < p.1.y).filterMap
      fun p => p.2.map fun x => (x - 25) * (x - 25) + (p.1.y - 21 / 4) * (p.1.y - 21 / 4))

/-- Line 214: `shots["y"] = shots["y"] / min_dist * 23.75`, applied to
every shot with no guard; `min_dist` is the square root of the minimal
squared arc distance, `NaN` (`none`) when no above-corner three-point
attempt contributes. -/
noncomputable def normalizedYs (shots : List Shot) : List (Option ℝ) :=
  match minArcDistSq shots with
  | none => shots.map fun _ => none
  | some d =>
    if d = 0 then shots.map fun _ => none
    else shots.map fun s => some ((s.y : ℝ) / Real.sqrt (d : ℚ) * (95 / 4))

/-- The full normalized coordinate set produced by lines 204-214: each
shot's rescaled x and y (either may be `NaN`). -/
noncomputable def normalizeShots (shots : List Shot) : List (Option ℚ × Option ℝ) :=
  (normalizedXs shots).zip (normalizedYs shots)

/-! ## The sorting routine behind the leaderboards (lines 285-297)

`box_scores.sort_values(stat, ascending=False).iloc[:3]` sorts with the
default `kind="quicksort"`.  pandas `nargsort` reverses the values, calls
numpy's `argsort(kind="quicksort")`, maps through the reversed index and
reverses the result, so that a *stable* kind would order ties by original
position.  numpy's quicksort is an introsort (`aquicksort` in
`npysort/quicksort.c.src`): median-of-3 Hoare partitioning down to
segments of at most `SMALL_QUICKSORT = 15` elements (so segments of up to
16 elements are insertion sorted and keep ties stable), a manual segment
stack, and a heapsort fallback once the depth limit `2 * floor(log2 n)`
is exhausted.  The partition step swaps freely across equal keys, so for
more than 16 rows ties are not kept in input order.  The functions below
transcribe `aquicksort`/`aheapsort`, with the index array `tosort` as a
`List ℕ` and explicit fuel for the C loops. -/

/-- `tosort[i]` (out-of-range reads, which the C code never performs on
the inputs used, default to 0). -/
def tsGet (ts : List ℕ) (i : ℕ) : ℕ :=
  ts.getD i 0

/-- `INTP_SWAP(tosort[i], tosort[j])`. -/
def tsSwap (ts : List ℕ) (i j : ℕ) : List ℕ :=
  (ts.set i (tsGet ts j)).set j (tsGet ts i)

/-- `v[tosort[i]]`: the key of the element currently at position `i`. -/
def keyAt (v : List ℤ) (ts : List ℕ) (i : ℕ) : ℤ :=
  v.getD (tsGet ts i) 0

/-- `do ++pi; while (v[*pi] < vp);` of the partition scan. -/
def scanUp (v : List ℤ) (ts : List ℕ) (vp : ℤ) : ℕ → ℕ → ℕ
  | 0, pi => pi + 1
  | fuel + 1, pi =>
    if keyAt v ts (pi + 1) < vp then scanUp v ts vp fuel (pi + 1) else pi + 1

/-- `do --pj; while (vp < v[*pj]);` of the partition scan. -/
def scanDown (v : List ℤ) (ts : List ℕ) (vp : ℤ) : ℕ → ℕ → ℕ
  | 0, pj => pj - 1
  | fuel + 1, pj =>
    if vp < keyAt v ts (pj - 1) then scanDown v ts vp fuel (pj - 1) else pj - 1

/-- The Hoare crossing loop of the partition: scan up, scan down, swap
and repeat until the pointers cross; returns the final `tosort` and
`pi`. -/
def partitionLoop (v : List ℤ) (vp : ℤ) : ℕ → List ℕ → ℕ → ℕ → List ℕ × ℕ
  | 0, ts, pi, _ => (ts, pi)
  | fuel + 1, ts, pi, pj =>
    let pi2 := scanUp v ts vp (pj + 1) pi
    let pj2 := scanDown v ts vp (pj + 1) pj
    if pj2 ≤ pi2 then (ts, pi2)
    else partitionLoop v vp fuel (tsSwap ts pi2 pj2) pi2 pj2

/-- One median-of-3 quicksort partition of `tosort[pl..pr]`, exactly as
in `aquicksort`: pivot selection swaps, stashing the pivot at `pr - 1`,
the crossing loop, and the final swap of the pivot into place. -/
def partition (v : List ℤ) (ts : List ℕ) (pl pr : ℕ) : List ℕ × ℕ :=
  let pm := pl + (pr - pl) / 2
  let ts := if keyAt v ts pm < keyAt v ts pl then tsSwap ts pm pl else ts
  let ts := if keyAt v ts pr < keyAt v ts pm then tsSwap ts pr pm else ts
  let ts := if keyAt v ts pm < keyAt v ts pl then tsSwap ts pm pl else ts
  let vp := keyAt v ts pm
  let ts := tsSwap ts pm (pr - 1)
  let (ts, pi) := partitionLoop v vp (pr + 1) ts pl (pr - 1)
  (tsSwap ts pi (pr - 1), pi)

/-- Insert index `i` into an already sorted run, shifting right while the
new key is strictly below (`while (pj > pl && vp < v[*pk]) ...`): the new
index lands after every index with a key less than or equal to its own,
which keeps equal keys in insertion order. -/
def npInsertOne (v : List ℤ) (i : ℕ) : List ℕ → List ℕ
  | [] => [i]
  | j :: rest =>
    if v.getD i 0 < v.getD j 0 then i :: j :: rest else j :: npInsertOne v i rest

/-- The insertion sort `aquicksort` applies to a small segment, taking
the segment's current indices left to right. -/
def npInsertionArgsort (v : List ℤ) (l : List ℕ) : List ℕ :=
  l.foldl (fun acc i => npInsertOne v i acc) []

/-- The insertion sort applied in place to `tosort[pl..pr]`. -/
def insertionSortRange (v : List ℤ) (ts : List ℕ) (pl pr : ℕ) : List ℕ :=
  ts.take pl ++ npInsertionArgsort v ((ts.drop pl).take (pr + 1 - pl)) ++ ts.drop (pr + 1)

/-- 1-indexed read of a heap segment (`a = tosort - 1` in `aheapsort`). -/
def hGet (seg : List ℕ) (i : ℕ) : ℕ :=
  seg.getD (i - 1) 0

/-- 1-indexed write of a heap segment. -/
def hSet (seg : List ℕ) (i x : ℕ) : List ℕ :=
  seg.set (i - 1) x

/-- The sift-down loop shared by both phases of `aheapsort`
(`for (;j <= n;) ... a[i] = tmp`). -/
def siftDown (v : List ℤ) (tmp : ℕ) : ℕ → List ℕ → ℕ → ℕ → ℕ → List ℕ
  | 0, seg, _, i, _ => hSet seg i tmp
  | fuel + 1, seg, n, i, j =>
    if j ≤ n then
      let j := if j < n ∧ v.getD (hGet seg j) 0 < v.getD (hGet seg (j + 1)) 0 then j + 1 else j
      if v.getD tmp 0 < v.getD (hGet seg j) 0 then
        siftDown v tmp fuel (hSet seg i (hGet seg j)) n j (j + j)
      else hSet seg i tmp
    else hSet seg i tmp

/-- Heap construction phase of `aheapsort`
(`for (l = n >> 1; l > 0; --l)`). -/
def heapBuild (v : List ℤ) (n : ℕ) : ℕ → List ℕ → List ℕ
  | 0, seg => seg
  | l + 1, seg =>
    let tmp := hGet seg (l + 1)
    heapBuild v n l (siftDown v tmp (n + 1) seg n (l + 1) ((l + 1) * 2))

/-- Extraction phase of `aheapsort` (`for (; n > 1;)`). -/
def heapExtract (v : List ℤ) : ℕ → List ℕ → List ℕ
  | 0, seg => seg
  | 1, seg => seg
  | n + 2, seg =>
    let tmp := hGet seg (n + 2)
    let seg := hSet seg (n + 2) (hGet seg 1)
    heapExtract v (n + 1) (siftDown v tmp (n + 3) seg (n + 1) 1 2)

/-- `aheapsort` applied to `tosort[pl..pr]`, the introsort's fallback
once the depth limit is exhausted. -/
def aheapsortRange (v : List ℤ) (ts : List ℕ) (pl pr : ℕ) : List ℕ :=
  let n := pr + 1 - pl
  let seg := (ts.drop pl).take n
  ts.take pl ++ heapExtract v n (heapBuild v n (n / 2) seg) ++ ts.drop (pr + 1)

/-- The main `aquicksort` loop: partition while the segment holds more
than `SMALL_QUICKSORT = 15` elements (heapsort once `depth_limit`
drops below zero), pushing the larger part on the stack; insertion sort
small segments; pop until the stack is empty. -/
def introLoop (v : List ℤ) : ℕ → ℤ → ℕ → ℕ → List (ℕ × ℕ) → List ℕ → List ℕ
  | 0, _, _, _, _, ts => ts
  | fuel + 1, depth, pl, pr, stack, ts =>
    if 15 < pr - pl then
      if depth < 0 then
        let ts := aheapsortRange v ts pl pr
        match stack with
        | [] => ts
        | (pl2, pr2) :: rest => introLoop v fuel depth pl2 pr2 rest ts
      else
        match partition v ts pl pr with
        | (ts2, pi) =>
          if pi - pl < pr - pi then
            introLoop v fuel (depth - 1) pl (pi - 1) ((pi + 1, pr) :: stack) ts2
          else
            introLoop v fuel (depth - 1) (pi + 1) pr ((pl, pi - 1) :: stack) ts2
    else
      let ts := insertionSortRange v ts pl pr
      match stack with
      | [] => ts
      | (pl2, pr2) :: rest => introLoop v fuel depth pl2 pr2 rest ts

/-- `np.argsort(v, kind="quicksort")`: run the introsort over the index
list `[0, ..., n-1]` with `depth_limit = npy_get_msb(num) * 2`.  The
fuel `2 * n + 2` dominates the number of loop iterations (each iteration
either performs one of the at most `n` partitions or pops the stack,
which holds at most one entry per partition). -/
def npArgsort (v : List ℤ) : List ℕ :=
  let n := v.length
  introLoop v (2 * n + 2) (2 * Nat.log2 n : ℤ) 0 (n - 1) [] (List.range n)

/-- pandas `nargsort(values, kind="quicksort", ascending=False)` for a
column without missing values: reverse the values and the index, argsort,
map through the reversed index, reverse the result. -/
def nargsortDesc (v : List ℤ) : List ℕ :=
  let n := v.length
  let revIdx := (List.range n).reverse
  ((npArgsort v.reverse).map fun k => revIdx.getD k 0).reverse

/-! ## Leaderboards (lines 273-297) -/

/-- The five leaderboard categories of line 274. -/
inductive Stat where
  | pts | trb | ast | stl | blk
deriving DecidableEq, Repr

/-- One player's box-score line: the player name (the frame's index),
the raw minutes-played column `MP` (which holds marker strings such as
"Did Not Play" or "Player Suspended" instead of minutes for players who
did not play), and the five counting stats, integers after
`.astype({stat: int ...})`. -/
structure PlayerLine where
  name : String
  mp : String
  pts : ℤ
  trb : ℤ
  ast : ℤ
  stl : ℤ
  blk : ℤ
deriving DecidableEq, Repr

/-- The value of one category for one line. -/
def statOf : Stat → PlayerLine → ℤ
  | .pts => PlayerLine.pts
  | .trb => PlayerLine.trb
  | .ast => PlayerLine.ast
  | .stl => PlayerLine.stl
  | .blk => PlayerLine.blk

/-- Whether `pat` is an initial run of `s` (on character lists). -/
def startsWithChars : List Char → List Char → Bool
  | [], _ => true
  | _ :: _, [] => false
  | a :: pa, b :: pb => a = b && startsWithChars pa pb

/-- Whether `pat` occurs contiguously inside `s` (on character lists). -/
def hasSubChars (pat : List Char) : List Char → Bool
  | [] => startsWithChars pat []
  | b :: rest => startsWithChars pat (b :: rest) || hasSubChars pat rest

/-- Plain substring test, the semantics of `Series.str.contains` for a
pattern without regex metacharacters. -/
def strContains (s pat : String) : Bool :=
  hasSubChars pat.data s.data

/-- Lines 280-283: keep a line unless its `MP` column contains "Not" or
"Suspended" (`~MP.str.contains("Not") & ~MP.str.contains("Suspended")`). -/
def keepLine (p : PlayerLine) : Bool :=
  !strContains p.mp "Not" && !strContains p.mp "Suspended"

/-- The retained box-score lines, in frame order. -/
def keptLines (players : List PlayerLine) : List PlayerLine :=
  players.filter keepLine

/-- Lines 285-297:
`box_scores.sort_values(stat, ascending=False).iloc[:3]` — the rows of
the filtered frame taken in the order of the descending argsort, first
three only. -/
def leaderboard (stat : Stat) (players : List PlayerLine) : List PlayerLine :=
  let kept := keptLines players
  ((nargsortDesc (kept.map (statOf stat))).take 3).filterMap fun i => kept.get? i

/-- The strict ordering "higher value first, input order among equal
values" that a stable descending sort realizes on distinct indices. -/
def lexDesc (v : List ℤ) (i j : ℕ) : Prop :=
  v.getD j 0 < v.getD i 0 ∨ (v.getD i 0 = v.getD j 0 ∧ i < j)

/-- The ascending counterpart: "lower value first, insertion order among
equal values". -/
def lexAsc (v : List ℤ) (i j : ℕ) : Prop :=
  v.getD i 0 < v.getD j 0 ∨ (v.getD i 0 = v.getD j 0 ∧ i < j)

/-! ## Theorems -/

/-- The series emitted after any prefix of the fold is non-decreasing:
the accumulator only ever moves down (`min (r - prev) 0 ≤ 0`), and
division by `-60` reverses the direction. -/
theorem elapsedAux_chain (l : List ℚ) :
    ∀ prev acc : ℚ, List.Chain' (· ≤ ·) (acc / (-60) :: elapsedAux prev acc l) := by
  induction l with
  | nil => intro prev acc; simp [elapsedAux]
  | cons r rest ih =>
    intro prev acc
    have h1 : acc + min (r - prev) 0 ≤ acc := by
      have := min_le_right (r - prev) (0 : ℚ)
      linarith
    have h2 : acc / (-60) ≤ (acc + min (r - prev) 0) / (-60) := by
      have hc : (-60 : ℚ) < 0 := by norm_num
      exact (div_le_div_right_of_neg hc).mpr h1
    show List.Chain' (· ≤ ·)
      (acc / (-60) :: (acc + min (r - prev) 0) / (-60)
        :: elapsedAux r (acc + min (r - prev) 0) rest)
    rw [List.chain'_cons]
    exact ⟨h2, ih r (acc + min (r - prev) 0)⟩

/-- C1: for every play-by-play remaining-time series, the elapsed-time
series built by accumulating only the negative clock deltas (upward
jumps at period rollovers contributing zero) starts at 0 and is
monotonically non-decreasing, with no constraint on the number of
periods or overtimes. -/
theorem elapsed_time_monotone (remaining : List ℚ) :
    List.Chain' (· ≤ ·) (elapsedTimes remaining) ∧
    (elapsedTimes remaining).head? = if remaining = [] then none else some 0 := by
  cases remaining with
  | nil => simp [elapsedTimes]
  | cons r0 rest =>
    refine ⟨?_, by simp [elapsedTimes]⟩
    have h := elapsedAux_chain rest r0 0
    rw [zero_div] at h
    simpa [elapsedTimes] using h

/-- Telescoping sum of the per-row durations along a tail of the
timeline. -/
theorem durationsFrom_sum (l : List TimedEvent) :
    ∀ prev : ℚ, ((durationsFrom prev l).map Prod.snd).sum
      = ((l.getLast?.map TimedEvent.elapsed).getD prev) - prev := by
  induction l with
  | nil => intro prev; simp [durationsFrom]
  | cons e rest ih =>
    intro prev
    cases rest with
    | nil => simp [durationsFrom]
    | cons f rest2 =>
      have hlast : ∃ x, (f :: rest2).getLast? = some x := by
        cases h : (f :: rest2).getLast? with
        | none => exact absurd h (by simp)
        | some x => exact ⟨x, rfl⟩
      obtain ⟨x, hx⟩ := hlast
      have h1 := ih e.elapsed
      rw [hx] at h1
      simp only [Option.map_some', Option.getD_some] at h1
      show (e.elapsed - prev) + ((durationsFrom e.elapsed (f :: rest2)).map Prod.snd).sum
        = (((e :: f :: rest2).getLast?.map TimedEvent.elapsed).getD prev) - prev
      rw [List.getLast?_cons_cons, hx, h1]
      simp only [Option.map_some', Option.getD_some]
      ring

/-- The three lead predicates (away ahead, home ahead, level) partition
every row, so the three filtered duration sums add up to the full
duration sum. -/
theorem three_way_duration_sum (L : List (TimedEvent × ℚ)) :
    ((L.filter fun p => p.1.home < p.1.away).map Prod.snd).sum
      + ((L.filter fun p => p.1.away < p.1.home).map Prod.snd).sum
      + ((L.filter fun p => p.1.away = p.1.home).map Prod.snd).sum
      = (L.map Prod.snd).sum := by
  induction L with
  | nil => simp
  | cons x L ih =>
    simp only [List.filter_cons, List.map_cons, List.sum_cons]
    rcases Nat.lt_trichotomy x.1.away x.1.home with h | h | h
    · rw [if_neg (by simp; omega), if_pos (by simp; omega), if_neg (by simp; omega)]
      simp only [List.map_cons, List.sum_cons]
      linarith
    · rw [if_neg (by simp; omega), if_neg (by simp; omega), if_pos (by simp; omega)]
      simp only [List.map_cons, List.sum_cons]
      linarith
    · rw [if_pos (by simp; omega), if_neg (by simp; omega), if_neg (by simp; omega)]
      simp only [List.map_cons, List.sum_cons]
      linarith

/-- C2: for every timed-event sequence, the away-leading duration plus
the home-leading duration plus the tied duration equals the total
elapsed duration (the elapsed span of the sequence) — exactly, hence in
particular within the `1e-6` tolerance. -/
theorem lead_duration_conservation (es : List TimedEvent) :
    awayLeadingTotal es + homeLeadingTotal es + tiedTotal es
        = lastElapsed es - headElapsed es ∧
      |awayLeadingTotal es + homeLeadingTotal es + tiedTotal es
        - (lastElapsed es - headElapsed es)| ≤ 1 / 1000000 := by
  have key : awayLeadingTotal es + homeLeadingTotal es + tiedTotal es
      = lastElapsed es - headElapsed es := by
    rw [awayLeadingTotal, homeLeadingTotal, tiedTotal, three_way_duration_sum]
    cases es with
    | nil => simp [withDurations, lastElapsed, headElapsed]
    | cons e rest =>
      show ((withDurations (e :: rest)).map Prod.snd).sum
        = lastElapsed (e :: rest) - headElapsed (e :: rest)
      have h1 := durationsFrom_sum rest e.elapsed
      cases rest with
      | nil => simp [withDurations, durationsFrom, lastElapsed, headElapsed]
      | cons f rest2 =>
        have hlast : ∃ x, (f :: rest2).getLast? = some x := by
          cases h : (f :: rest2).getLast? with
          | none => exact absurd h (by simp)
          | some x => exact ⟨x, rfl⟩
        obtain ⟨x, hx⟩ := hlast
        rw [hx] at h1
        simp only [Option.map_some', Option.getD_some] at h1
        show (0 + ((durationsFrom e.elapsed (f :: rest2)).map Prod.snd).sum : ℚ)
          = lastElapsed (e :: f :: rest2) - headElapsed (e :: f :: rest2)
        rw [h1, lastElapsed, headElapsed, List.getLast?_cons_cons, hx]
        simp only [List.head?_cons, Option.map_some', Option.getD_some]
        ring
  refine ⟨key, ?_⟩
  rw [key]
  simp

/-- For a nonzero integer the sign is determined by the `< 0` test. -/
theorem sign_of_ne_zero (x : ℤ) (hx : x ≠ 0) :
    x.sign = if x < 0 then -1 else 1 := by
  rcases lt_trichotomy x 0 with h | h | h
  · rw [if_pos h]
    exact Int.sign_eq_neg_one_iff_neg.mpr h
  · exact absurd h hx
  · rw [if_neg (by omega : ¬ x < 0)]
    exact Int.sign_eq_one_iff_pos.mpr h

/-- Over a zero-free lead series, the XOR-`diff`-`sum` of the boolean
series `lead < 0` counts exactly the sign flips between consecutive
entries. -/
theorem countFlips_eq_signFlips (l : List ℤ) (h : ∀ x ∈ l, x ≠ 0) :
    countFlips (l.map fun x => decide (x < 0)) = signFlipsAux l := by
  induction l with
  | nil => rfl
  | cons x l ih =>
    cases l with
    | nil => rfl
    | cons y rest =>
      have hx : x ≠ 0 := h x (by simp)
      have hy : y ≠ 0 := h y (by simp)
      have hiff : (decide (x < 0) ≠ decide (y < 0)) ↔ x.sign ≠ y.sign := by
        rw [sign_of_ne_zero x hx, sign_of_ne_zero y hy]
        by_cases hx0 : x < 0 <;> by_cases hy0 : y < 0 <;> simp [hx0, hy0]
      have htail := ih fun z hz => h z (List.mem_cons_of_mem _ hz)
      show (if decide (x < 0) ≠ decide (y < 0) then 1 else 0)
          + countFlips ((y :: rest).map fun x => decide (x < 0))
        = (if x.sign ≠ y.sign then 1 else 0) + signFlipsAux (y :: rest)
      rw [htail]
      congr 1
      by_cases hcond : decide (x < 0) ≠ decide (y < 0)
      · rw [if_pos hcond, if_pos (hiff.mp hcond)]
      · rw [if_neg hcond, if_neg (fun hs => hcond (hiff.mpr hs))]

/-- C3 (amended): the lead-change count computed on lines 92-95 equals
the number of sign flips between consecutive non-missing entries of the
lead series, zeros treated as missing; on the lead series
`[0, 3, -1, -1, 2, -4]` that count is 3 (positive→negative,
negative→positive, positive→negative). -/
theorem lead_change_count_spec (leads : List ℤ) :
    leadChanges leads = signFlipCount leads ∧
      leadChanges [0, 3, -1, -1, 2, -4] = 3 := by
  refine ⟨?_, by decide⟩
  rw [leadChanges, signFlipCount]
  exact countFlips_eq_signFlips _ fun x hx => by
    have := List.of_mem_filter hx
    simpa using this

/-- C3 counterexample: the claim's concrete expectation fails — on the
lead series `[0, 3, -1, -1, 2, -4]` the computed lead-change count is
not 2 (it is 3: the zero-free series `[3, -1, -1, 2, -4]` flips sign
three times). -/
theorem lead_change_example_ne_two :
    leadChanges [0, 3, -1, -1, 2, -4] ≠ 2 := by decide

/-- Membership in the deduplication fold: an element survives iff it
occurs in the input and was not already seen. -/
theorem mem_dropDupPairsAux (l : List ScorePair) :
    ∀ seen a, a ∈ dropDupPairsAux seen l ↔ a ∈ l ∧ a ∉ seen := by
  induction l with
  | nil => intro seen a; simp [dropDupPairsAux]
  | cons p rest ih =>
    intro seen a
    by_cases hp : p ∈ seen
    · rw [dropDupPairsAux, if_pos hp, ih]
      constructor
      · rintro ⟨h1, h2⟩; exact ⟨List.mem_cons_of_mem _ h1, h2⟩
      · rintro ⟨h1, h2⟩
        rcases List.mem_cons.mp h1 with rfl | h1
        · exact absurd hp h2
        · exact ⟨h1, h2⟩
    · rw [dropDupPairsAux, if_neg hp]
      constructor
      · intro hmem
        rcases List.mem_cons.mp hmem with rfl | hmem
        · exact ⟨List.mem_cons_self _ _, hp⟩
        · have := (ih (p :: seen) a).mp hmem
          exact ⟨List.mem_cons_of_mem _ this.1,
            fun hs => this.2 (List.mem_cons_of_mem _ hs)⟩
      · rintro ⟨h1, h2⟩
        rcases List.mem_cons.mp h1 with rfl | h1
        · exact List.mem_cons_self _ _
        · by_cases hap : a = p
          · subst hap; exact List.mem_cons_self _ _
          · exact List.mem_cons_of_mem _
              ((ih (p :: seen) a).mpr ⟨h1, by simp [hap, h2]⟩)

/-- The deduplication fold never emits an element twice. -/
theorem nodup_dropDupPairsAux (l : List ScorePair) :
    ∀ seen, (dropDupPairsAux seen l).Nodup := by
  induction l with
  | nil => intro seen; simp [dropDupPairsAux]
  | cons p rest ih =>
    intro seen
    by_cases hp : p ∈ seen
    · rw [dropDupPairsAux, if_pos hp]; exact ih seen
    · rw [dropDupPairsAux, if_neg hp]
      refine List.nodup_cons.mpr ⟨fun hmem => ?_, ih (p :: seen)⟩
      have := (mem_dropDupPairsAux rest (p :: seen) p).mp hmem
      exact this.2 (List.mem_cons_self _ _)

/-- `drop_duplicates` keeps one row per distinct score pair, so up to
order it is `List.dedup`. -/
theorem dropDupPairs_perm_dedup (ps : List ScorePair) :
    List.Perm (dropDupPairs ps) ps.dedup := by
  rw [dropDupPairs,
    List.perm_ext_iff_of_nodup (nodup_dropDupPairsAux ps []) ps.nodup_dedup]
  intro a
  rw [mem_dropDupPairsAux, List.mem_dedup]
  simp

/-- C4: the tie count of lines 86-91 — deduplicate the score pairs, keep
positive away scores, count the equal ones — is the number of distinct
score pairs that are ties with positive score; on the score pairs
`[(0,0), (2,0), (2,2), (2,2), (4,2)]` it is 1. -/
theorem tie_count_spec (ps : List ScorePair) :
    tieCount ps = specTieCount ps ∧
      tieCount [⟨0, 0⟩, ⟨2, 0⟩, ⟨2, 2⟩, ⟨2, 2⟩, ⟨4, 2⟩] = 1 := by
  refine ⟨?_, by decide⟩
  rw [tieCount, specTieCount]
  have hperm : List.Perm
      (((dropDupPairs ps).filter fun p => 0 < p.away).filter fun p => p.away = p.home)
      ((ps.dedup.filter fun p => 0 < p.away).filter fun p => p.away = p.home) :=
    ((dropDupPairs_perm_dedup ps).filter _).filter _
  rw [hperm.length_eq]
  congr 1
  rw [List.filter_filter]
  refine List.filter_congr fun p _ => ?_
  by_cases h1 : 0 < p.away <;> by_cases h2 : p.away = p.home <;> simp [h1, h2]

/-- C5 (code bug): on a shot set with no corner three-point attempt
(here a single three-pointer with `y = 20`, above the corner threshold)
both corner anchors are the `NaN` of an empty `max`/`min`; since Python
treats `NaN` as truthy, `if left_corner and right_corner:` does *not*
skip the rescale, and every raw x is destroyed into `NaN` instead of
being retained. -/
theorem no_corner_rescale_not_skipped :
    leftCorner [⟨30, 20, 3⟩] = none ∧ rightCorner [⟨30, 20, 3⟩] = none ∧
      normalizedXs [⟨30, 20, 3⟩] = [none] ∧
      normalizedXs [⟨30, 20, 3⟩] ≠ [some 30] := by decide

/-- When the corner anchors already sit at the true positions (left at
3, right at 47, hence exactly 44 apart), the x-rescale is the identity
on every shot. -/
theorem normalizedXs_id (shots : List Shot) (hlc : leftCorner shots = some 3)
    (hrc : rightCorner shots = some 47) :
    normalizedXs shots = shots.map fun s => some s.x := by
  rw [normalizedXs]
  simp only [hlc, hrc]
  rw [if_pos (by decide)]
  refine List.map_congr_left fun s _ => ?_
  show (if (47 : ℚ) - 3 = 0 then none else some ((s.x - 3) / (47 - 3) * 44 + 3))
    = some s.x
  rw [if_neg (by norm_num)]
  congr 1
  field_simp
  ring

/-- When the minimal squared arc distance is exactly the squared true
three-point radius, the y-rescale divides by `23.75` and multiplies by
`23.75`: the identity on every shot. -/
theorem normalizedYs_id (shots : List Shot)
    (hmin : minArcDistSq shots = some (95 / 4 * (95 / 4))) :
    normalizedYs shots = shots.map fun s => some (s.y : ℝ) := by
  rw [normalizedYs]
  simp only [hmin]
  rw [if_neg (by norm_num)]
  refine List.map_congr_left fun s _ => ?_
  have hs : Real.sqrt (((95 / 4 * (95 / 4) : ℚ)) : ℝ) = (95 / 4 : ℝ) := by
    push_cast
    exact Real.sqrt_mul_self (by norm_num)
  rw [hs]
  congr 1
  field_simp

/-- C6: when the raw corner anchors are already exactly at the true
anchor positions (so exactly the true corner-to-corner distance apart)
and the closest above-corner three-point attempt is already exactly at
the true radius from the hoop, the whole normalization is the identity
transform on every shot's coordinates. -/
theorem calibration_identity (shots : List Shot)
    (hlc : leftCorner shots = some 3) (hrc : rightCorner shots = some 47)
    (hmin : minArcDistSq shots = some (95 / 4 * (95 / 4))) :
    normalizeShots shots = shots.map fun s => (some s.x, some (s.y : ℝ)) := by
  rw [normalizeShots, normalizedXs_id shots hlc hrc, normalizedYs_id shots hmin,
    List.zip_map']

/-- Witness for `calibration_identity`: three three-point attempts, the
corner pair at raw x 3 and 47 and an arc attempt exactly 23.75 from the
hoop, are left unchanged by the normalization. -/
theorem calibration_identity_witness :
    leftCorner [⟨3, 5, 3⟩, ⟨47, 5, 3⟩, ⟨25, 29, 3⟩] = some 3 ∧
      rightCorner [⟨3, 5, 3⟩, ⟨47, 5, 3⟩, ⟨25, 29, 3⟩] = some 47 ∧
      minArcDistSq [⟨3, 5, 3⟩, ⟨47, 5, 3⟩, ⟨25, 29, 3⟩] = some (95 / 4 * (95 / 4)) ∧
      normalizeShots [⟨3, 5, 3⟩, ⟨47, 5, 3⟩, ⟨25, 29, 3⟩]
        = ([⟨3, 5, 3⟩, ⟨47, 5, 3⟩, ⟨25, 29, 3⟩] : List Shot).map
            fun s => (some s.x, some (s.y : ℝ)) := by
  have hlc : leftCorner [⟨3, 5, 3⟩, ⟨47, 5, 3⟩, ⟨25, 29, 3⟩] = some 3 := by decide
  have hrc : rightCorner [⟨3, 5, 3⟩, ⟨47, 5, 3⟩, ⟨25, 29, 3⟩] = some 47 := by decide
  have hmin : minArcDistSq [⟨3, 5, 3⟩, ⟨47, 5, 3⟩, ⟨25, 29, 3⟩]
      = some (95 / 4 * (95 / 4)) := by
    rw [minArcDistSq, normalizedXs_id _ hlc hrc]
    show seriesMin (List.filterMap _ (List.filter _
      (List.zip _ [some (3 : ℚ), some 47, some 25]))) = _
    rw [show List.zip ([⟨3, 5, 3⟩, ⟨47, 5, 3⟩, ⟨25, 29, 3⟩] : List Shot)
        [some (3 : ℚ), some 47, some 25]
      = [(⟨3, 5, 3⟩, some 3), (⟨47, 5, 3⟩, some 47), (⟨25, 29, 3⟩, some 25)] from rfl]
    rw [show List.filter _ [((⟨3, 5, 3⟩ : Shot), some (3 : ℚ)),
        (⟨47, 5, 3⟩, some 47), (⟨25, 29, 3⟩, some 25)]
      = [((⟨25, 29, 3⟩ : Shot), some (25 : ℚ))] from by decide]
    simp only [List.filterMap, Option.map_some', seriesMin]
    norm_num
  exact ⟨hlc, hrc, hmin, calibration_identity _ hlc hrc hmin⟩

/-- C8 (amended): one coordinate string failing numeric coercion makes
`float` raise out of `Series.apply`, so the whole coercion — and with it
the whole shot-chart derivation — fails; the shot is not dropped
individually. -/
theorem malformed_coordinate_aborts (raw : List RawShot)
    (h : ∃ s ∈ raw, s.x = none ∨ s.y = none) :
    coerceShots raw = Except.error () := by
  induction raw with
  | nil => simp at h
  | cons s rest ih =>
    cases hx : s.x with
    | none => simp [coerceShots, hx]
    | some x =>
      cases hy : s.y with
      | none => simp [coerceShots, hx, hy]
      | some y =>
        have hrest : ∃ t ∈ rest, t.x = none ∨ t.y = none := by
          rcases h with ⟨t, ht, hmal⟩
          rcases List.mem_cons.mp ht with rfl | ht
          · rcases hmal with h' | h'
            · rw [hx] at h'; cases h'
            · rw [hy] at h'; cases h'
          · exact ⟨t, ht, hmal⟩
        simp [coerceShots, hx, hy, ih hrest]

/-- Witness for `malformed_coordinate_aborts`. -/
theorem malformed_coordinate_aborts_witness :
    (∃ s ∈ ([⟨none, some 3, 2⟩] : List RawShot), s.x = none ∨ s.y = none) ∧
      coerceShots [⟨none, some 3, 2⟩] = Except.error () := by
  have h : ∃ s ∈ ([⟨none, some 3, 2⟩] : List RawShot), s.x = none ∨ s.y = none := by
    decide
  exact ⟨h, malformed_coordinate_aborts _ h⟩

/-- C8 counterexample: with one well-formed and one malformed shot, the
coercion does not drop the malformed shot and keep the rest — it fails
outright. -/
theorem malformed_coordinate_not_dropped :
    coerceShots [⟨some 1, some 2, 2⟩, ⟨none, some 3, 2⟩] = Except.error () ∧
      coerceShots [⟨some 1, some 2, 2⟩, ⟨none, some 3, 2⟩]
        ≠ Except.ok [⟨1, 2, 2⟩] := by
  refine ⟨rfl, fun h => ?_⟩
  rw [show coerceShots [⟨some 1, some 2, 2⟩, ⟨none, some 3, 2⟩]
      = Except.error () from rfl] at h
  exact Except.noConfusion h

/-- C10: with no three-point attempt above the corner threshold
(`y > 14`), the empirical minimal arc distance is the `NaN` of an empty
minimum, and the unguarded y-rescale maps every shot's y — every shot,
not only three-pointers — to `NaN`. -/
theorem no_arc_three_y_nan (shots : List Shot)
    (h : ∀ s ∈ shots, ¬(s.value = 3 ∧ 14 < s.y)) :
    minArcDistSq shots = none ∧ normalizedYs shots = shots.map fun _ => none := by
  have hfil : ((shots.zip (normalizedXs shots)).filter
      fun p => p.1.value = 3 ∧ 14 < p.1.y) = [] := by
    rw [List.filter_eq_nil_iff]
    intro p hp
    have hmem := (List.of_mem_zip hp).1
    simpa using h p.1 hmem
  have hm : minArcDistSq shots = none := by
    rw [minArcDistSq, hfil]
    rfl
  exact ⟨hm, by simp only [normalizedYs, hm]⟩

/-- Witness for `no_arc_three_y_nan`: a lone two-point attempt comes out
with `NaN` y. -/
theorem no_arc_three_y_nan_witness :
    (∀ s ∈ ([⟨10, 5, 2⟩] : List Shot), ¬(s.value = 3 ∧ 14 < s.y)) ∧
      normalizedYs [⟨10, 5, 2⟩] = [none] := by
  have h : ∀ s ∈ ([⟨10, 5, 2⟩] : List Shot), ¬(s.value = 3 ∧ 14 < s.y) := by decide
  refine ⟨h, ?_⟩
  rw [(no_arc_three_y_nan _ h).2]
  rfl

/-- A `lexAsc`-earlier index never has the larger key. -/
theorem lexAsc_le (v : List ℤ) {a b : ℕ} (h : lexAsc v a b) :
    v.getD a 0 ≤ v.getD b 0 := by
  rcases h with h | ⟨h, _⟩
  · exact le_of_lt h
  · exact le_of_eq h

/-- Inserting into a run only adds the new index. -/
theorem npInsertOne_perm (v : List ℤ) (i : ℕ) (acc : List ℕ) :
    List.Perm (npInsertOne v i acc) (i :: acc) := by
  induction acc with
  | nil => exact List.Perm.refl _
  | cons j rest ih =>
    rw [npInsertOne]
    by_cases hc : v.getD i 0 < v.getD j 0
    · rw [if_pos hc]
    · rw [if_neg hc]
      exact (ih.cons j).trans (List.Perm.swap i j rest)

/-- The fold of insertions only permutes the processed indices (with the
initial accumulator appended). -/
theorem npInsertionFold_perm (v : List ℤ) :
    ∀ (l acc : List ℕ),
      List.Perm (l.foldl (fun a i => npInsertOne v i a) acc) (l ++ acc) := by
  intro l
  induction l with
  | nil => intro acc; exact List.Perm.refl _
  | cons i rest ih =>
    intro acc
    have h1 := ih (npInsertOne v i acc)
    have h2 : List.Perm (rest ++ npInsertOne v i acc) (rest ++ i :: acc) :=
      List.Perm.append_left rest (npInsertOne_perm v i acc)
    have h3 : List.Perm (rest ++ i :: acc) (i :: (rest ++ acc)) := List.perm_middle
    exact (h1.trans h2).trans h3

/-- The small-segment insertion sort permutes its input. -/
theorem npInsertionArgsort_perm (v : List ℤ) (l : List ℕ) :
    List.Perm (npInsertionArgsort v l) l := by
  have := npInsertionFold_perm v l []
  rw [List.append_nil] at this
  exact this

/-- Inserting an index larger (in input position) than everything in a
`lexAsc`-sorted run keeps the run `lexAsc`-sorted: the strict-`<` shift
places it after every equal key. -/
theorem npInsertOne_pairwise (v : List ℤ) (i : ℕ) (acc : List ℕ)
    (hacc : acc.Pairwise (lexAsc v)) (hall : ∀ j ∈ acc, j < i) :
    (npInsertOne v i acc).Pairwise (lexAsc v) := by
  induction acc with
  | nil => simp [npInsertOne, List.Pairwise]
  | cons j rest ih =>
    obtain ⟨hj, hrest⟩ := List.pairwise_cons.mp hacc
    rw [npInsertOne]
    by_cases hc : v.getD i 0 < v.getD j 0
    · rw [if_pos hc]
      refine List.pairwise_cons.mpr ⟨?_, hacc⟩
      intro k hk
      rcases List.mem_cons.mp hk with rfl | hk
      · exact Or.inl hc
      · exact Or.inl (lt_of_lt_of_le hc (lexAsc_le v (hj k hk)))
    · rw [if_neg hc]
      refine List.pairwise_cons.mpr ⟨?_, ?_⟩
      · intro k hk
        rcases List.mem_cons.mp ((npInsertOne_perm v i rest).mem_iff.mp hk) with rfl | hk
        · rcases lt_or_eq_of_le (not_lt.mp hc) with hlt | heq
          · exact Or.inl hlt
          · exact Or.inr ⟨heq, hall j (List.mem_cons_self _ _)⟩
        · exact hj k hk
      · exact ih hrest fun j hjr => hall j (List.mem_cons_of_mem _ hjr)

/-- Folding insertions of strictly increasing indices over a `lexAsc`-
sorted accumulator whose indices all precede the inserted ones yields a
`lexAsc`-sorted run. -/
theorem npInsertionFold_pairwise (v : List ℤ) :
    ∀ (l acc : List ℕ), acc.Pairwise (lexAsc v) →
      (∀ j ∈ acc, ∀ i ∈ l, j < i) → l.Pairwise (· < ·) →
      (l.foldl (fun a i => npInsertOne v i a) acc).Pairwise (lexAsc v) := by
  intro l
  induction l with
  | nil => intro acc hacc _ _; exact hacc
  | cons i rest ih =>
    intro acc hacc hall hl
    obtain ⟨hi, hrest⟩ := List.pairwise_cons.mp hl
    refine ih (npInsertOne v i acc) ?_ ?_ hrest
    · exact npInsertOne_pairwise v i acc hacc
        fun j hj => hall j hj i (List.mem_cons_self _ _)
    · intro j hj i2 hi2
      rcases List.mem_cons.mp ((npInsertOne_perm v i acc).mem_iff.mp hj) with rfl | hj
      · exact hi i2 hi2
      · exact hall j hj i2 (List.mem_cons_of_mem _ hi2)

/-- On the initial index list, the insertion sort is a permutation of
`range n` that is sorted by "key ascending, position ascending among
equal keys" — it is stable. -/
theorem npInsertionArgsort_range (v : List ℤ) :
    List.Perm (npInsertionArgsort v (List.range v.length)) (List.range v.length) ∧
      (npInsertionArgsort v (List.range v.length)).Pairwise (lexAsc v) := by
  refine ⟨npInsertionArgsort_perm v _, ?_⟩
  exact npInsertionFold_pairwise v (List.range v.length) []
    (List.Pairwise.nil) (by simp) (List.pairwise_lt_range _)

/-- A fueled introsort step on an already-small segment with an empty
stack is exactly the insertion sort of that segment. -/
theorem introLoop_small (v : List ℤ) (fuel : ℕ) (depth : ℤ) (pl pr : ℕ)
    (ts : List ℕ) (h : ¬ 15 < pr - pl) :
    introLoop v (fuel + 1) depth pl pr [] ts = insertionSortRange v ts pl pr := by
  rw [introLoop, if_neg h]

/-- Up to 16 values (`SMALL_QUICKSORT = 15` exclusive bound on `pr - pl`)
the introsort never partitions: it is the stable insertion sort. -/
theorem npArgsort_small (v : List ℤ) (h : v.length ≤ 16) :
    npArgsort v = npInsertionArgsort v (List.range v.length) := by
  rw [npArgsort]
  have h2 : ¬ 15 < (v.length - 1) - 0 := by omega
  rw [show 2 * v.length + 2 = (2 * v.length + 1) + 1 from rfl,
    introLoop_small v _ _ _ _ _ h2, insertionSortRange]
  rcases Nat.eq_zero_or_pos v.length with h0 | h0
  · rw [h0]; rfl
  · have e1 : v.length - 1 + 1 - 0 = v.length := by omega
    have e2 : v.length - 1 + 1 = v.length := by omega
    rw [e1, e2, List.drop_zero, List.take_zero,
      show (List.range v.length).take v.length = List.range v.length from
        List.take_of_length_le (by rw [List.length_range]),
      show (List.range v.length).drop v.length = [] from
        List.drop_eq_nil_of_le (by rw [List.length_range])]
    simp

/-- Reading the reversed range at `k < n` gives `n - 1 - k`. -/
theorem revRange_getD (n k : ℕ) (hk : k < n) :
    (List.range n).reverse.getD k 0 = n - 1 - k := by
  have hlen : k < (List.range n).reverse.length := by
    rw [List.length_reverse, List.length_range]; exact hk
  rw [List.getD_eq_getElem _ _ hlen, List.getElem_reverse]
  simp

/-- Reading the reversed values at `k < n` gives the value at
`n - 1 - k`. -/
theorem reverse_getD (v : List ℤ) (k : ℕ) (hk : k < v.length) :
    v.reverse.getD k 0 = v.getD (v.length - 1 - k) 0 := by
  have hlen : k < v.reverse.length := by rw [List.length_reverse]; exact hk
  have hlen2 : v.length - 1 - k < v.length := by omega
  rw [List.getD_eq_getElem _ _ hlen, List.getElem_reverse,
    List.getD_eq_getElem _ _ (by simpa using hlen2)]

/-- The complement map `k ↦ n - 1 - k` permutes `range n`. -/
theorem complement_map_perm (n : ℕ) :
    List.Perm ((List.range n).map fun k => n - 1 - k) (List.range n) := by
  have hnodup : (((List.range n).map fun k => n - 1 - k)).Nodup := by
    refine List.Nodup.map_on ?_ (List.nodup_range ..)
    intro a ha b hb hab
    rw [List.mem_range] at ha hb
    omega
  rw [List.perm_ext_iff_of_nodup hnodup (List.nodup_range ..)]
  intro a
  simp only [List.mem_map, List.mem_range]
  constructor
  · rintro ⟨k, hk, rfl⟩; omega
  · intro ha; exact ⟨n - 1 - a, by omega, by omega⟩

/-- C7 (amended), core statement: for up to 16 rows, the descending
`nargsort` with the default quicksort is a permutation of the row
indices sorted by "value descending, original position ascending among
equal values" — the stable descending order.  (For more rows the
introsort partitions and this fails; see the 17-row counterexample.) -/
theorem nargsortDesc_small (v : List ℤ) (h : v.length ≤ 16) :
    List.Perm (nargsortDesc v) (List.range v.length) ∧
      (nargsortDesc v).Pairwise (lexDesc v) := by
  set n := v.length with hn
  have hw : v.reverse.length = n := by rw [List.length_reverse]
  have hsmall : v.reverse.length ≤ 16 := by rw [hw]; exact h
  have hsort := npArgsort_small v.reverse hsmall
  obtain ⟨hperm, hpair⟩ := npInsertionArgsort_range v.reverse
  rw [← hsort] at hperm hpair
  rw [hw] at hperm
  have hmem : ∀ k ∈ npArgsort v.reverse, k < n := by
    intro k hk
    exact List.mem_range.mp (hperm.mem_iff.mp hk)
  have hmap : (npArgsort v.reverse).map (fun k => (List.range n).reverse.getD k 0)
      = (npArgsort v.reverse).map fun k => n - 1 - k :=
    List.map_congr_left fun k hk => revRange_getD n k (hmem k hk)
  have hq_perm : List.Perm ((npArgsort v.reverse).map fun k => n - 1 - k)
      (List.range n) :=
    (hperm.map _).trans (complement_map_perm n)
  have hq_pair : ((npArgsort v.reverse).map fun k => n - 1 - k).Pairwise
      fun a b => lexDesc v b a := by
    rw [List.pairwise_map]
    refine hpair.imp_of_mem ?_
    intro a b ha hb hab
    have han : a < n := hmem a ha
    have hbn : b < n := hmem b hb
    rcases hab with hlt | ⟨heq, hidx⟩
    · rw [reverse_getD v a (by omega), reverse_getD v b (by omega), ← hn] at hlt
      exact Or.inl hlt
    · rw [reverse_getD v a (by omega), reverse_getD v b (by omega), ← hn] at heq
      exact Or.inr ⟨heq.symm, by omega⟩
  constructor
  · rw [nargsortDesc, ← hn, hmap]
    exact (List.reverse_perm _).trans hq_perm
  · rw [nargsortDesc, ← hn, hmap, List.pairwise_reverse]
    exact hq_pair

/-- C7 (amended): for a game whose filtered box score has at most 16
rows, each leaderboard is the first three rows of an ordering of the
rows that ranks values descending and preserves the original input order
among equal values (stable tie-breaking); beyond 16 rows the default
quicksort gives no such guarantee. -/
theorem leaderboard_stable_of_small (players : List PlayerLine) (stat : Stat)
    (h : (keptLines players).length ≤ 16) :
    List.Perm (nargsortDesc ((keptLines players).map (statOf stat)))
        (List.range (keptLines players).length) ∧
      (nargsortDesc ((keptLines players).map (statOf stat))).Pairwise
        (lexDesc ((keptLines players).map (statOf stat))) ∧
      leaderboard stat players
        = ((nargsortDesc ((keptLines players).map (statOf stat))).take 3).filterMap
            fun i => (keptLines players).get? i := by
  have hlen : ((keptLines players).map (statOf stat)).length ≤ 16 := by
    rw [List.length_map]; exact h
  obtain ⟨h1, h2⟩ := nargsortDesc_small _ hlen
  rw [List.length_map] at h1
  exact ⟨h1, h2, rfl⟩

/-- Witness for `leaderboard_stable_of_small`: two players with equal
points keep their input order. -/
theorem leaderboard_stable_of_small_witness :
    (keptLines [⟨"A", "30:00", 5, 0, 0, 0, 0⟩, ⟨"B", "20:00", 5, 1, 0, 0, 0⟩]).length
        ≤ 16 ∧
      List.Perm (nargsortDesc ((keptLines
          [⟨"A", "30:00", 5, 0, 0, 0, 0⟩, ⟨"B", "20:00", 5, 1, 0, 0, 0⟩]).map
            (statOf .pts)))
        (List.range (keptLines
          [⟨"A", "30:00", 5, 0, 0, 0, 0⟩, ⟨"B", "20:00", 5, 1, 0, 0, 0⟩]).length) ∧
      (nargsortDesc ((keptLines
          [⟨"A", "30:00", 5, 0, 0, 0, 0⟩, ⟨"B", "20:00", 5, 1, 0, 0, 0⟩]).map
            (statOf .pts))).Pairwise
        (lexDesc ((keptLines
          [⟨"A", "30:00", 5, 0, 0, 0, 0⟩, ⟨"B", "20:00", 5, 1, 0, 0, 0⟩]).map
            (statOf .pts))) ∧
      leaderboard .pts [⟨"A", "30:00", 5, 0, 0, 0, 0⟩, ⟨"B", "20:00", 5, 1, 0, 0, 0⟩]
        = ((nargsortDesc ((keptLines
              [⟨"A", "30:00", 5, 0, 0, 0, 0⟩, ⟨"B", "20:00", 5, 1, 0, 0, 0⟩]).map
                (statOf .pts))).take 3).filterMap
            fun i => (keptLines
              [⟨"A", "30:00", 5, 0, 0, 0, 0⟩, ⟨"B", "20:00", 5, 1, 0, 0, 0⟩]).get? i := by
  refine ⟨by decide, ?_⟩
  exact leaderboard_stable_of_small
    [⟨"A", "30:00", 5, 0, 0, 0, 0⟩, ⟨"B", "20:00", 5, 1, 0, 0, 0⟩] .pts (by decide)

/-- C7 counterexample: seventeen players with identical values.  Stable
tie-breaking would output the first three in input order, players "0",
"1", "2"; the quicksort partition pass reorders the ties and the top 3
actually are "0", "9", "15". -/
theorem leaderboard_unstable_seventeen :
    (leaderboard .pts ((List.range 17).map fun i =>
        ⟨toString i, "30:00", 5, 5, 5, 5, 5⟩)).map PlayerLine.name = ["0", "9", "15"] ∧
      (["0", "9", "15"] : List String) ≠ ["0", "1", "2"] := by decide

/-- C9: a box-score line whose minutes column carries a did-not-play or
suspension marker is filtered out before sorting and can never appear in
any top-3 leaderboard. -/
theorem dnp_excluded (players : List PlayerLine) (stat : Stat) (p : PlayerLine)
    (h : strContains p.mp "Not" = true ∨ strContains p.mp "Suspended" = true) :
    p ∉ leaderboard stat players := by
  intro hmem
  rw [leaderboard] at hmem
  obtain ⟨i, _, hget⟩ := List.mem_filterMap.mp hmem
  have hkept : p ∈ keptLines players := List.get?_mem hget
  have hkeep := List.of_mem_filter hkept
  rw [keepLine] at hkeep
  rcases h with h | h <;> simp [h] at hkeep

/-- Witness for `dnp_excluded`: a player whose `MP` reads "Did Not Play"
is absent from the points leaderboard of a roster containing them. -/
theorem dnp_excluded_witness :
    (strContains "Did Not Play" "Not" = true ∨
        strContains "Did Not Play" "Suspended" = true) ∧
      (⟨"A", "Did Not Play", 9, 0, 0, 0, 0⟩ : PlayerLine)
        ∉ leaderboard .pts
            [⟨"A", "Did Not Play", 9, 0, 0, 0, 0⟩, ⟨"B", "30:00", 5, 0, 0, 0, 0⟩] := by
  have h : strContains "Did Not Play" "Not" = true ∨
      strContains "Did Not Play" "Suspended" = true := Or.inl (by decide)
  exact ⟨h, dnp_excluded _ .pts _ h⟩

end NbaGamePlots
